import Mathlib

/-!
Verification development for the `ghdiff` repository.

Shallow embedding of:
* `internal/diff/parser.go` — the unified-diff parsing engine (`Parse`,
  `parseHunk`, `parseFileName` and the regular expressions used there);
* `internal/diff/types.go` — the diff model (`DiffResult`, `FileDiff`,
  `Hunk`, `Line`);
* `web/js/app.js` — the split-view line aligner (`renderHunkSplit`).

Go strings are modelled as Lean `String`s; the anchored RE2 regular
expressions of the parser are modelled as deterministic matchers over
`List Char` (each pattern's greedy behaviour is deterministic, argued at
each definition); Go `int` is modelled as `Int`, with the range check of
`strconv.Atoi` (values above `2^63 - 1` fail) modelled explicitly, since
that is the one place the code inspects overflow.
-/

namespace Ghdiff

/-! ### String helpers (models of the `strings` package functions used) -/

/-- Model of `strings.HasPrefix p` applied to `s` (char-level; all prefixes
used by the code are ASCII, where byte and char prefixes coincide). -/
def strStarts (p s : String) : Bool :=
  p.data.isPrefixOf s.data

/-- Drop the first `n` characters of `s` (model of the byte slice `s[n:]`
for an ASCII prefix of length `n`). -/
def strDrop (s : String) (n : Nat) : String :=
  String.mk (s.data.drop n)

/-- Go's `unicode.IsSpace` (the set trimmed by `strings.TrimSpace`). -/
def goIsSpace (c : Char) : Bool :=
  c = ' ' || c = '\t' || c = '\n' || (c.toNat = 11) || (c.toNat = 12) ||
  c = '\r' || (c.toNat = 0x85) || (c.toNat = 0xA0) || (c.toNat = 0x1680) ||
  (0x2000 ≤ c.toNat && c.toNat ≤ 0x200A) || (c.toNat = 0x2028) ||
  (c.toNat = 0x2029) || (c.toNat = 0x202F) || (c.toNat = 0x205F) ||
  (c.toNat = 0x3000)

/-- Model of `strings.TrimSpace`. -/
def goTrimSpace (s : String) : String :=
  String.mk (((s.data.dropWhile goIsSpace).reverse.dropWhile goIsSpace).reverse)

/-- Model of `strings.TrimPrefix s p` (argument order: pattern first). -/
def trimLead (p s : String) : String :=
  if strStarts p s then strDrop s p.data.length else s

/-- Match `^<p>(.+)$`: the line starts with `p` and has a nonempty rest,
which is returned. Models the `rename from` / `rename to` patterns and the
fixed literal prefixes of the other patterns. -/
def matchTail (p s : String) : Option String :=
  if strStarts p s && decide (p.data.length < s.data.length) then
    some (strDrop s p.data.length)
  else none

/-! ### Deterministic matchers for the compiled regular expressions -/

/-- Split `m` at the last occurrence of `tok` that leaves a nonempty
remainder, maximising the part before `tok` (the greedy choice of a leading
`(.+)` group). Returns `(before, after)`. -/
def lastSplitTok (tok : List Char) : List Char → Option (List Char × List Char)
  | [] => none
  | c :: rest =>
    match lastSplitTok tok rest with
    | some (pre, post) => some (c :: pre, post)
    | none =>
      if tok.isPrefixOf (c :: rest) && decide (tok.length < (c :: rest).length) then
        some ([], (c :: rest).drop tok.length)
      else none

/-- Model of `diffHeaderRe = ^diff --git a/(.+) b/(.+)$`.
The first `(.+)` is greedy, so the split happens at the last ` b/` that
leaves both groups nonempty. -/
def matchDiffHeader (s : String) : Option (String × String) :=
  match matchTail "diff --git a/" s with
  | none => none
  | some m =>
    match lastSplitTok " b/".data m.data with
    | some (pre, post) =>
      if pre.isEmpty then none else some (String.mk pre, String.mk post)
    | none => none

/-- Does `post` match `(.+) differ$`? (ends in ` differ` with at least one
character before it). -/
def differTail (post : List Char) : Bool :=
  " differ".data.isSuffixOf post && decide (7 < post.length)

/-- Split `m` at the last ` and ` whose remainder matches `(.+) differ$`,
returning the part before ` and ` and the middle group (` differ`
stripped). Greedy choice of the first `(.+)` of `binaryRe`. -/
def lastAndDiffer : List Char → Option (List Char × List Char)
  | [] => none
  | c :: rest =>
    match lastAndDiffer rest with
    | some (pre, mid) => some (c :: pre, mid)
    | none =>
      if " and ".data.isPrefixOf (c :: rest) then
        let post := (c :: rest).drop 5
        if differTail post then some ([], post.take (post.length - 7)) else none
      else none

/-- Model of `binaryRe = ^Binary files (.+) and (.+) differ$`; returns the
two captures. -/
def matchBinary (s : String) : Option (String × String) :=
  match matchTail "Binary files " s with
  | none => none
  | some m =>
    match lastAndDiffer m.data with
    | some (pre, mid) =>
      if pre.isEmpty then none else some (String.mk pre, String.mk mid)
    | none => none

/-- Model of `renameFromRe = ^rename from (.+)$`. -/
def matchRenameFrom (s : String) : Option String :=
  matchTail "rename from " s

/-- Model of `renameToRe = ^rename to (.+)$`. -/
def matchRenameTo (s : String) : Option String :=
  matchTail "rename to " s

/-- The five captures of `hunkHeaderRe`; the optional comma-count groups
are `none` when unmatched (Go reports them as `""`, and `parseHunk` tests
`hm[k] != ""`). -/
structure HunkCaps where
  g1 : String
  g2 : Option String
  g3 : String
  g4 : Option String
  g5 : String
deriving DecidableEq, Repr

/-- Maximal leading run of ASCII digits (the greedy `(\d+)`; RE2's `\d` is
ASCII-only). -/
def takeDigits (l : List Char) : List Char × List Char :=
  (l.takeWhile Char.isDigit, l.dropWhile Char.isDigit)

/-- Match the optional `(?:,(\d+))?` group.  The regex alternative of
matching it empty and then requiring a literal ` ` can never fire when a
comma followed by a digit is present, so the match is deterministic. -/
def optCommaDigits : List Char → Option (List Char) × List Char
  | ',' :: t =>
    let (d, t2) := takeDigits t
    if d.isEmpty then (none, ',' :: t) else (some d, t2)
  | r => (none, r)

/-- Model of `hunkHeaderRe = ^@@ -(\d+)(?:,(\d+))? \+(\d+)(?:,(\d+))? @@(.*)$`. -/
def matchHunkHeader (s : String) : Option HunkCaps :=
  match s.data with
  | '@' :: '@' :: ' ' :: '-' :: r0 =>
    let (d1, r1) := takeDigits r0
    if d1.isEmpty then none else
    let (g2, r2) := optCommaDigits r1
    match r2 with
    | ' ' :: '+' :: r3 =>
      let (d3, r4) := takeDigits r3
      if d3.isEmpty then none else
      let (g4, r5) := optCommaDigits r4
      match r5 with
      | ' ' :: '@' :: '@' :: g5 =>
        some ⟨String.mk d1, g2.map String.mk, String.mk d3, g4.map String.mk, String.mk g5⟩
      | _ => none
    | _ => none
  | _ => none

/-! ### `strconv.Atoi` on the digit-only captures -/

/-- Numeric value of a digit list. -/
def digitsToNat (l : List Char) : Nat :=
  l.foldl (fun a c => 10 * a + (c.toNat - '0'.toNat)) 0

/-- Largest Go `int` (64-bit). -/
def maxGoInt : Nat := 2 ^ 63 - 1

/-- Model of `strconv.Atoi` on the strings this parser feeds it (the
captures of `(\d+)`: nonempty, digits only).  Go returns `ErrRange`
("value out of range") when the value exceeds the 64-bit `int` range, and
a syntax error on anything that is not a plain digit string. -/
def atoi (s : String) : Except String Int :=
  if !s.data.isEmpty && s.data.all Char.isDigit then
    if digitsToNat s.data ≤ maxGoInt then .ok (Int.ofNat (digitsToNat s.data))
    else .error "value out of range"
  else .error "invalid syntax"

/-- The `hm[k] != ""` test plus `strconv.Atoi`, with the default `1` for an
omitted comma-count. -/
def atoiDefault1 : Option String → Except String Int
  | none => .ok 1
  | some s => atoi s

/-! ### The diff model (`internal/diff/types.go`) -/

/-- `Line` of `types.go`: one line inside a hunk.  Go's zero value `0`
stands for an absent line number (`omitempty`). -/
structure Line where
  type : String
  content : String
  oldNum : Int
  newNum : Int
deriving DecidableEq, Repr

/-- `Hunk` of `types.go`: one contiguous block of changes. -/
structure Hunk where
  oldStart : Int
  oldLines : Int
  newStart : Int
  newLines : Int
  header : String
  lines : List Line
deriving DecidableEq, Repr

/-- `FileDiff` of `types.go`: the diff for a single file. -/
structure FileDiff where
  oldName : String
  newName : String
  status : String
  isBinary : Bool
  hunks : List Hunk
deriving DecidableEq, Repr

/-- `DiffResult` of `types.go`. -/
structure DiffResult where
  files : List FileDiff
deriving DecidableEq, Repr

/-! ### The parsing engine (`internal/diff/parser.go`) -/

/-- `parseFileName` of `parser.go`: extract the file name from the value
of a `--- ` or `+++ ` line. -/
def parseFileName (s : String) : String :=
  let s := goTrimSpace s
  if s = "/dev/null" then "/dev/null"
  else if strStarts "a/" s || strStarts "b/" s then strDrop s 2
  else s

/-- The hunk-body loop of `parseHunk` (lines 214–269 of `parser.go`),
starting with counters `o = oldStart` and `n = newStart`.  Returns the
collected `Line`s and the unconsumed remainder of the input: a next-hunk
or next-diff line is left in place, an empty line is consumed (`*i++`
before `break`), an unknown prefix is left in place (`break loop`), and a
no-newline marker is consumed without effect. -/
def parseHunkBody : List String → Int → Int → List Line × List String
  | [], _, _ => ([], [])
  | l :: rest, o, n =>
    if strStarts "@@ " l || strStarts "diff --git " l then ([], l :: rest)
    else if strStarts "\\ No newline at end of file" l then parseHunkBody rest o n
    else
      match l.data with
      | [] => ([], rest)
      | c :: cs =>
        if c = ' ' then
          let (ls, rem) := parseHunkBody rest (o + 1) (n + 1)
          (⟨"context", String.mk cs, o, n⟩ :: ls, rem)
        else if c = '+' then
          let (ls, rem) := parseHunkBody rest o (n + 1)
          (⟨"add", String.mk cs, 0, n⟩ :: ls, rem)
        else if c = '-' then
          let (ls, rem) := parseHunkBody rest (o + 1) n
          (⟨"delete", String.mk cs, o, 0⟩ :: ls, rem)
        else ([], l :: rest)

/-- `parseHunk` of `parser.go`.  `hm` holds the captures of the matched
header line and `lines` the input lines after it (the Go function receives
the whole slice and first advances `i` past the `@@` line). -/
def parseHunk (hm : HunkCaps) (lines : List String) : Except String (Hunk × List String) :=
  match atoi hm.g1 with
  | .error e => .error ("invalid old start: " ++ e)
  | .ok oldStart =>
  match atoiDefault1 hm.g2 with
  | .error e => .error ("invalid old lines: " ++ e)
  | .ok oldLines =>
  match atoi hm.g3 with
  | .error e => .error ("invalid new start: " ++ e)
  | .ok newStart =>
  match atoiDefault1 hm.g4 with
  | .error e => .error ("invalid new lines: " ++ e)
  | .ok newLines =>
  let header := "@@ -" ++ hm.g1 ++
    (match hm.g2 with | some s => "," ++ s | none => "") ++
    " +" ++ hm.g3 ++
    (match hm.g4 with | some s => "," ++ s | none => "") ++
    " @@" ++
    (let funcCtx := goTrimSpace hm.g5
     if funcCtx = "" then "" else " " ++ funcCtx)
  let (ls, rem) := parseHunkBody lines oldStart newStart
  .ok (⟨oldStart, oldLines, newStart, newLines, header, ls⟩, rem)

/-- The remainder of a hunk body is a suffix of the lines fed to it. -/
theorem parseHunkBody_suffix (lines : List String) (o n : Int) :
    (parseHunkBody lines o n).2 <:+ lines := by
  induction lines generalizing o n with
  | nil => simp [parseHunkBody]
  | cons l rest ih =>
    simp only [parseHunkBody]
    split
    · exact List.suffix_refl _
    · split
      · exact (ih o n).trans (List.suffix_cons l rest)
      · split
        · exact List.suffix_cons l rest
        · split
          · exact ((ih (o + 1) (n + 1)).trans (List.suffix_cons l rest))
          · split
            · exact ((ih o (n + 1)).trans (List.suffix_cons l rest))
            · split
              · exact ((ih (o + 1) n).trans (List.suffix_cons l rest))
              · exact List.suffix_refl _

/-- On success, `parseHunk` leaves a suffix of its input lines. -/
theorem parseHunk_suffix {hm : HunkCaps} {lines : List String} {hk : Hunk}
    {rem : List String} (h : parseHunk hm lines = .ok (hk, rem)) :
    rem <:+ lines := by
  unfold parseHunk at h
  split at h
  · exact absurd h (by simp)
  split at h
  · exact absurd h (by simp)
  split at h
  · exact absurd h (by simp)
  split at h
  · exact absurd h (by simp)
  simp at h
  obtain ⟨-, h2⟩ := h
  exact h2 ▸ parseHunkBody_suffix lines _ _

/-- The hunks loop of `Parse` (lines 119–135 of `parser.go`): scan lines
until the next `diff --git ` line or end of input, parsing each line that
matches the hunk-header pattern and appending the resulting hunk.
Structural recursion on a fuel bound (each iteration consumes at least one
line, so any fuel above `lines.length` is enough; the zero-fuel branch is
unreachable from `parseHunksLoop`, as `parseHunksLoop_eq` proves). -/
def parseHunksLoopF : Nat → FileDiff → List String → Except String (FileDiff × List String)
  | _, file, [] => .ok (file, [])
  | 0, file, l :: rest => .ok (file, l :: rest)
  | fuel + 1, file, l :: rest =>
    if strStarts "diff --git " l then .ok (file, l :: rest)
    else
      match matchHunkHeader l with
      | none => parseHunksLoopF fuel file rest
      | some hm =>
        match parseHunk hm rest with
        | .error e => .error e
        | .ok (hk, rem) =>
          parseHunksLoopF fuel { file with hunks := file.hunks ++ [hk] } rem

/-- The hunks loop, with enough fuel for its input. -/
def parseHunksLoop (file : FileDiff) (lines : List String) :
    Except String (FileDiff × List String) :=
  parseHunksLoopF (lines.length + 1) file lines

/-- The fuel is irrelevant once it exceeds the number of lines. -/
theorem parseHunksLoopF_irrel (f1 : Nat) : ∀ (f2 : Nat) (file : FileDiff)
    (lines : List String), lines.length < f1 → lines.length < f2 →
    parseHunksLoopF f1 file lines = parseHunksLoopF f2 file lines := by
  induction f1 with
  | zero => intro f2 file lines h1; omega
  | succ f1 ih =>
    intro f2 file lines h1 h2
    cases lines with
    | nil => cases f2 with
      | zero => omega
      | succ f2 => rfl
    | cons l rest =>
      cases f2 with
      | zero => omega
      | succ f2 =>
        simp only [parseHunksLoopF]
        by_cases hd : strStarts "diff --git " l
        · rw [if_pos hd, if_pos hd]
        · rw [if_neg hd, if_neg hd]
          cases hmh : matchHunkHeader l with
          | none =>
            simp only [List.length_cons] at h1 h2
            exact ih f2 file rest (by omega) (by omega)
          | some caps =>
            simp only []
            cases hpk : parseHunk caps rest with
            | error e => rfl
            | ok pr =>
              rcases pr with ⟨hk, rem⟩
              simp only []
              have hle := (parseHunk_suffix hpk).length_le
              simp only [List.length_cons] at h1 h2
              exact ih f2 _ rem (by omega) (by omega)

/-- The hunks loop satisfies the recurrence of the Go loop. -/
theorem parseHunksLoop_eq (file : FileDiff) (lines : List String) :
    parseHunksLoop file lines =
      match lines with
      | [] => .ok (file, [])
      | l :: rest =>
        if strStarts "diff --git " l then .ok (file, l :: rest)
        else
          match matchHunkHeader l with
          | none => parseHunksLoop file rest
          | some hm =>
            match parseHunk hm rest with
            | .error e => .error e
            | .ok (hk, rem) =>
              parseHunksLoop { file with hunks := file.hunks ++ [hk] } rem := by
  cases lines with
  | nil => rfl
  | cons l rest =>
    show parseHunksLoopF (rest.length + 1 + 1) file (l :: rest) = _
    simp only [parseHunksLoopF]
    by_cases hd : strStarts "diff --git " l
    · rw [if_pos hd, if_pos hd]
    · rw [if_neg hd, if_neg hd]
      cases hmh : matchHunkHeader l with
      | none => rfl
      | some caps =>
        simp only []
        cases hpk : parseHunk caps rest with
        | error e => rfl
        | ok pr =>
          rcases pr with ⟨hk, rem⟩
          simp only []
          have hle := (parseHunk_suffix hpk).length_le
          have heq : parseHunksLoopF (rest.length + 1)
              { file with hunks := file.hunks ++ [hk] } rem =
              parseHunksLoop { file with hunks := file.hunks ++ [hk] } rem :=
            parseHunksLoopF_irrel (rest.length + 1) (rem.length + 1) _ rem
              (by omega) (by omega)
          rw [heq]

/-- Status derivation of the `--- ` branch (lines 96–106 of `parser.go`). -/
def deriveStatus (f : FileDiff) : FileDiff :=
  if f.status = "" then
    { f with status :=
        if f.oldName = "/dev/null" then "added"
        else if f.newName = "/dev/null" then "deleted"
        else "modified" }
  else f

/-- The extended-header loop of `Parse` (lines 44–116 of `parser.go`):
rename lines, the binary marker, the `--- `/`+++ ` pair, and the breaks to
the hunks section.  Returns the updated file and the unconsumed lines. -/
def parseExtHeaders (file : FileDiff) : List String → FileDiff × List String
  | [] => (file, [])
  | l :: rest =>
    if strStarts "diff --git " l then (file, l :: rest)
    else
      match matchRenameFrom l with
      | some p => parseExtHeaders { file with oldName := p, status := "renamed" } rest
      | none =>
      match matchRenameTo l with
      | some p => parseExtHeaders { file with newName := p, status := "renamed" } rest
      | none =>
      match matchBinary l with
      | some (oldSide, newSide) =>
        let f0 := { file with isBinary := true }
        let f1 :=
          if oldSide = "/dev/null" then { f0 with oldName := "/dev/null", status := "added" }
          else { f0 with oldName := trimLead "a/" oldSide }
        let f2 :=
          if newSide = "/dev/null" then { f1 with newName := "/dev/null", status := "deleted" }
          else { f1 with newName := trimLead "b/" newSide }
        let f3 := if f2.status = "" then { f2 with status := "modified" } else f2
        (f3, rest)
      | none =>
      if strStarts "--- " l then
        let f1 := { file with oldName := parseFileName (strDrop l 4) }
        match rest with
        | l2 :: rest2 =>
          if strStarts "+++ " l2 then
            (deriveStatus { f1 with newName := parseFileName (strDrop l2 4) }, rest2)
          else (deriveStatus f1, rest)
        | [] => (deriveStatus f1, [])
      else if strStarts "@@ " l then (file, l :: rest)
      else parseExtHeaders file rest

/-- One file block of `Parse`: the lines after a matched diff header are
run through the extended-header loop and the hunks loop, and the status
defaults to `modified` (lines 137–140 of `parser.go`). -/
def parseFileBlock (oldName newName : String) (lines : List String) :
    Except String (FileDiff × List String) :=
  let (f1, r1) := parseExtHeaders ⟨oldName, newName, "", false, []⟩ lines
  match parseHunksLoop f1 r1 with
  | .error e => .error e
  | .ok (f2, r2) =>
    .ok (if f2.status = "" then { f2 with status := "modified" } else f2, r2)

/-- The remainder of the extended-header loop is a suffix of its input. -/
theorem parseExtHeaders_suffix (file : FileDiff) (lines : List String) :
    (parseExtHeaders file lines).2 <:+ lines := by
  induction lines generalizing file with
  | nil => simp [parseExtHeaders]
  | cons l rest ih =>
    simp only [parseExtHeaders]
    split
    · exact List.suffix_refl _
    · split
      · exact (ih _).trans (List.suffix_cons _ _)
      · split
        · exact (ih _).trans (List.suffix_cons _ _)
        · split
          · exact List.suffix_cons _ _
          · split
            · split
              · split
                · exact (List.suffix_cons _ _).trans (List.suffix_cons _ _)
                · exact List.suffix_cons _ _
              · exact List.nil_suffix
            · split
              · exact List.suffix_refl _
              · exact (ih _).trans (List.suffix_cons _ _)

/-- The remainder of the hunks loop is a suffix of its input. -/
theorem parseHunksLoop_suffix (file : FileDiff) (lines : List String)
    {f' : FileDiff} {rem : List String}
    (h : parseHunksLoop file lines = .ok (f', rem)) : rem <:+ lines := by
  cases hL : lines with
  | nil =>
    subst hL
    simp [parseHunksLoop, parseHunksLoopF] at h
    simp [h]
  | cons l rest =>
    subst hL
    rw [parseHunksLoop_eq] at h
    simp only [] at h
    by_cases hd : strStarts "diff --git " l
    · rw [if_pos hd] at h
      cases h
      exact List.suffix_refl _
    · rw [if_neg hd] at h
      cases hm : matchHunkHeader l with
      | none =>
        rw [hm] at h
        exact (parseHunksLoop_suffix file rest h).trans (List.suffix_cons _ _)
      | some caps =>
        simp only [hm] at h
        split at h
        · simp at h
        · rename_i hk rem' hpk
          exact ((parseHunksLoop_suffix _ rem' h).trans (parseHunk_suffix hpk)).trans
            (List.suffix_cons _ _)
termination_by lines.length
decreasing_by
  · simp_wf
    subst hL
    simp
  · simp_wf
    rename_i h1 h2 hpk
    have := (parseHunk_suffix hpk).length_le
    subst hL
    simp
    omega

/-- On success, a file block leaves a suffix of its input lines. -/
theorem parseFileBlock_suffix {o n : String} {lines rem : List String}
    {f : FileDiff} (h : parseFileBlock o n lines = .ok (f, rem)) :
    rem <:+ lines := by
  unfold parseFileBlock at h
  split at h
  rename_i f1 r1 hext
  split at h
  · exact absurd h (by simp)
  · rename_i f2 r2 hloop
    simp at h
    obtain ⟨-, h2⟩ := h
    have h1 : r1 <:+ lines := by
      have hs := parseExtHeaders_suffix ⟨o, n, "", false, []⟩ lines
      rw [hext] at hs
      exact hs
    exact h2 ▸ (parseHunksLoop_suffix _ _ hloop).trans h1

/-- The outer loop of `Parse` (lines 29–143 of `parser.go`): skip lines
until one matches the diff-header pattern, parse that file block, continue.
Structural recursion on a fuel bound, unreachable at zero from
`parseFilesLoop` (see `parseFilesLoop_eq`). -/
def parseFilesLoopF : Nat → List String → Except String (List FileDiff)
  | _, [] => .ok []
  | 0, _ :: _ => .ok []
  | fuel + 1, l :: rest =>
    match matchDiffHeader l with
    | none => parseFilesLoopF fuel rest
    | some (o, n) =>
      match parseFileBlock o n rest with
      | .error e => .error e
      | .ok (f, rem) =>
        match parseFilesLoopF fuel rem with
        | .error e => .error e
        | .ok fs => .ok (f :: fs)

/-- The outer loop, with enough fuel for its input. -/
def parseFilesLoop (lines : List String) : Except String (List FileDiff) :=
  parseFilesLoopF (lines.length + 1) lines

/-- The fuel is irrelevant once it exceeds the number of lines. -/
theorem parseFilesLoopF_irrel (f1 : Nat) : ∀ (f2 : Nat) (lines : List String),
    lines.length < f1 → lines.length < f2 →
    parseFilesLoopF f1 lines = parseFilesLoopF f2 lines := by
  induction f1 with
  | zero => intro f2 lines h1; omega
  | succ f1 ih =>
    intro f2 lines h1 h2
    cases lines with
    | nil => cases f2 with
      | zero => omega
      | succ f2 => rfl
    | cons l rest =>
      cases f2 with
      | zero => omega
      | succ f2 =>
        simp only [parseFilesLoopF]
        cases hmd : matchDiffHeader l with
        | none =>
          simp only [List.length_cons] at h1 h2
          exact ih f2 rest (by omega) (by omega)
        | some pq =>
          rcases pq with ⟨o, n⟩
          simp only []
          cases hblk : parseFileBlock o n rest with
          | error e => rfl
          | ok pr =>
            rcases pr with ⟨f, rem⟩
            simp only []
            have hle := (parseFileBlock_suffix hblk).length_le
            simp only [List.length_cons] at h1 h2
            rw [ih f2 rem (by omega) (by omega)]

/-- The outer loop satisfies the recurrence of the Go loop. -/
theorem parseFilesLoop_eq (lines : List String) :
    parseFilesLoop lines =
      match lines with
      | [] => .ok []
      | l :: rest =>
        match matchDiffHeader l with
        | none => parseFilesLoop rest
        | some (o, n) =>
          match parseFileBlock o n rest with
          | .error e => .error e
          | .ok (f, rem) =>
            match parseFilesLoop rem with
            | .error e => .error e
            | .ok fs => .ok (f :: fs) := by
  cases lines with
  | nil => rfl
  | cons l rest =>
    show parseFilesLoopF (rest.length + 1 + 1) (l :: rest) = _
    simp only [parseFilesLoopF]
    cases hmd : matchDiffHeader l with
    | none => rfl
    | some pq =>
      rcases pq with ⟨o, n⟩
      simp only []
      cases hblk : parseFileBlock o n rest with
      | error e => rfl
      | ok pr =>
        rcases pr with ⟨f, rem⟩
        simp only []
        have hle := (parseFileBlock_suffix hblk).length_le
        have heq : parseFilesLoopF (rest.length + 1) rem = parseFilesLoop rem :=
          parseFilesLoopF_irrel (rest.length + 1) (rem.length + 1) rem
            (by omega) (by omega)
        rw [heq]

/-- Split a character list at every newline (model of
`strings.Split(input, "\n")`; the separator occurrences are removed and
empty fields are kept, so the result is always nonempty). -/
def splitLines : List Char → List (List Char)
  | [] => [[]]
  | c :: rest =>
    if c = '\n' then [] :: splitLines rest
    else
      match splitLines rest with
      | ls :: lss => (c :: ls) :: lss
      | [] => [[c]]

/-- The lines of the input, as Go's `strings.Split(input, "\n")` produces
them. -/
def linesOf (input : String) : List String :=
  (splitLines input.data).map String.mk

/-- `Parse` of `parser.go`: the empty input short-circuits to an empty
result; otherwise the input is split on newlines and scanned. -/
def Parse (input : String) : Except String DiffResult :=
  if input = "" then .ok ⟨[]⟩
  else
    match parseFilesLoop (linesOf input) with
    | .error e => .error e
    | .ok fs => .ok ⟨fs⟩

/-! ### The split-view line aligner (`renderHunkSplit` of `web/js/app.js`) -/

/-- One display row of the split view, as emitted by `renderHunkSplit`: the
hunk-header row, a context row (the record shown on both sides), a paired
modification row, a delete-only row, or an add-only row. -/
inductive SplitRow where
  | header (text : String)
  | context (l : Line)
  | pair (del add : Line)
  | delOnly (del : Line)
  | addOnly (add : Line)
deriving DecidableEq, Repr

/-- The `for (let j = 0; j < maxLen; j++)` pairing loop of
`renderHunkSplit`: emit `max(deletes.length, adds.length)` rows, pairing
`deletes[j]` and `adds[j]` positionally when both exist. -/
def pairRows : List Line → List Line → List SplitRow
  | d :: ds, a :: as => .pair d a :: pairRows ds as
  | d :: ds, [] => .delOnly d :: pairRows ds []
  | [], a :: as => .addOnly a :: pairRows [] as
  | [], [] => []

/-- The body of `renderHunkSplit`'s `while (i < lines.length)` loop:
context rows pass through, a run of consecutive deletes collects the
immediately following run of consecutive adds and pairs them, a standalone
add emits an add-only row, and any other `type` is skipped (`else i++`).
Structural recursion on a fuel bound, unreachable at zero from
`alignLines` (see `alignLines_eq`). -/
def alignLinesF : Nat → List Line → List SplitRow
  | _, [] => []
  | 0, _ :: _ => []
  | fuel + 1, l :: rest =>
    if l.type = "context" then .context l :: alignLinesF fuel rest
    else if l.type = "delete" then
      let ds := (l :: rest).takeWhile (fun x => x.type = "delete")
      let r1 := (l :: rest).dropWhile (fun x => x.type = "delete")
      let as := r1.takeWhile (fun x => x.type = "add")
      let r2 := r1.dropWhile (fun x => x.type = "add")
      pairRows ds as ++ alignLinesF fuel r2
    else if l.type = "add" then .addOnly l :: alignLinesF fuel rest
    else alignLinesF fuel rest

/-- The while loop of `renderHunkSplit`, with enough fuel for its input. -/
def alignLines (ls : List Line) : List SplitRow :=
  alignLinesF (ls.length + 1) ls

/-- The fuel is irrelevant once it exceeds the number of records. -/
theorem alignLinesF_irrel (f1 : Nat) : ∀ (f2 : Nat) (ls : List Line),
    ls.length < f1 → ls.length < f2 → alignLinesF f1 ls = alignLinesF f2 ls := by
  induction f1 with
  | zero => intro f2 ls h1; omega
  | succ f1 ih =>
    intro f2 ls h1 h2
    cases ls with
    | nil => cases f2 with
      | zero => omega
      | succ f2 => rfl
    | cons l rest =>
      cases f2 with
      | zero => omega
      | succ f2 =>
        simp only [List.length_cons] at h1 h2
        simp only [alignLinesF]
        by_cases hc : l.type = "context"
        · rw [if_pos hc, if_pos hc, ih f2 rest (by omega) (by omega)]
        · rw [if_neg hc, if_neg hc]
          by_cases hdel : l.type = "delete"
          · rw [if_pos hdel, if_pos hdel]
            have hr2 : ((List.dropWhile (fun x : Line => decide (x.type = "delete"))
                (l :: rest)).dropWhile (fun x : Line => decide (x.type = "add"))).length ≤
                rest.length := by
              rw [List.dropWhile_cons_of_pos (by simp [hdel])]
              exact le_trans (List.dropWhile_sublist _).length_le
                (List.dropWhile_sublist _).length_le
            rw [ih f2 _ (by omega) (by omega)]
          · rw [if_neg hdel, if_neg hdel]
            by_cases ha : l.type = "add"
            · rw [if_pos ha, if_pos ha, ih f2 rest (by omega) (by omega)]
            · rw [if_neg ha, if_neg ha, ih f2 rest (by omega) (by omega)]

/-- The aligner satisfies the recurrence of the JS while loop. -/
theorem alignLines_eq (ls : List Line) :
    alignLines ls =
      match ls with
      | [] => []
      | l :: rest =>
        if l.type = "context" then .context l :: alignLines rest
        else if l.type = "delete" then
          pairRows ((l :: rest).takeWhile (fun x => x.type = "delete"))
              (((l :: rest).dropWhile (fun x => x.type = "delete")).takeWhile
                (fun x => x.type = "add")) ++
            alignLines (((l :: rest).dropWhile (fun x => x.type = "delete")).dropWhile
              (fun x => x.type = "add"))
        else if l.type = "add" then .addOnly l :: alignLines rest
        else alignLines rest := by
  cases ls with
  | nil => rfl
  | cons l rest =>
    show alignLinesF (rest.length + 1 + 1) (l :: rest) = _
    simp only [alignLinesF]
    by_cases hc : l.type = "context"
    · rw [if_pos hc, if_pos hc]
      rfl
    · rw [if_neg hc, if_neg hc]
      by_cases hdel : l.type = "delete"
      · rw [if_pos hdel, if_pos hdel]
        have hr2 : ((List.dropWhile (fun x : Line => decide (x.type = "delete"))
            (l :: rest)).dropWhile (fun x : Line => decide (x.type = "add"))).length ≤
            rest.length := by
          rw [List.dropWhile_cons_of_pos (by simp [hdel])]
          exact le_trans (List.dropWhile_sublist _).length_le
            (List.dropWhile_sublist _).length_le
        have heq : alignLinesF (rest.length + 1)
            ((List.dropWhile (fun x : Line => decide (x.type = "delete"))
              (l :: rest)).dropWhile (fun x : Line => decide (x.type = "add"))) =
            alignLines ((List.dropWhile (fun x : Line => decide (x.type = "delete"))
              (l :: rest)).dropWhile (fun x : Line => decide (x.type = "add"))) :=
          alignLinesF_irrel (rest.length + 1)
            (((List.dropWhile (fun x : Line => decide (x.type = "delete"))
              (l :: rest)).dropWhile (fun x : Line => decide (x.type = "add"))).length + 1)
            _ (by omega) (by omega)
        rw [heq]
      · rw [if_neg hdel, if_neg hdel]
        by_cases ha : l.type = "add"
        · rw [if_pos ha, if_pos ha]
          rfl
        · rw [if_neg ha, if_neg ha]
          rfl

/-- `renderHunkSplit` of `app.js` as a pure function: the header row first,
then the aligned body rows. -/
def renderHunkSplitRows (h : Hunk) : List SplitRow :=
  .header h.header :: alignLines h.lines

/-- The old-side cell of a row (`null` modelled as `none`). -/
def oldSide : SplitRow → Option Line
  | .header _ => none
  | .context l => some l
  | .pair d _ => some d
  | .delOnly d => some d
  | .addOnly _ => none

/-- The new-side cell of a row. -/
def newSide : SplitRow → Option Line
  | .header _ => none
  | .context l => some l
  | .pair _ a => some a
  | .delOnly _ => none
  | .addOnly a => some a

/-- The input records a row accounts for.  A context record shown on both
sides of its row counts as the single record it came from. -/
def rowRecords : SplitRow → List Line
  | .header _ => []
  | .context l => [l]
  | .pair d a => [d, a]
  | .delOnly d => [d]
  | .addOnly a => [a]

/-! ### Derived notions used to state the claims -/

/-- The `oldNum` values of the `context`/`delete` lines of a hunk body, in
sequence order. -/
def oldNums (ls : List Line) : List Int :=
  (ls.filter (fun l => l.type = "context" || l.type = "delete")).map (·.oldNum)

/-- The `newNum` values of the `context`/`add` lines of a hunk body, in
sequence order. -/
def newNums (ls : List Line) : List Int :=
  (ls.filter (fun l => l.type = "context" || l.type = "add")).map (·.newNum)

/-- `[start, start+1, ..., start+k-1]`. -/
def consecFrom (start : Int) (k : Nat) : List Int :=
  (List.range k).map (fun j => start + Int.ofNat j)

/-- A hunk's line numbering is exactly consecutive from its start values. -/
def GoodNums (h : Hunk) : Prop :=
  oldNums h.lines = consecFrom h.oldStart (oldNums h.lines).length ∧
  newNums h.lines = consecFrom h.newStart (newNums h.lines).length

/-- `s` is a nonempty all-digit string (the shape of every `(\d+)`
capture). -/
def digitsOk (s : String) : Bool :=
  !s.data.isEmpty && s.data.all Char.isDigit

/-- An optional capture, when present, is a nonempty all-digit string. -/
def optDigitsOk : Option String → Bool
  | none => true
  | some s => digitsOk s

/-- The numeric value of `s` exceeds the 64-bit Go `int` range. -/
def overBig (s : String) : Bool :=
  decide (maxGoInt < digitsToNat s.data)

/-- An optional capture is present and exceeds the Go `int` range. -/
def optOverBig : Option String → Bool
  | none => false
  | some s => overBig s

/-- Some present capture of a matched hunk header exceeds the Go `int`
range (the only way `strconv.Atoi` can fail on an all-digit capture). -/
def capsOverflowB (caps : HunkCaps) : Bool :=
  overBig caps.g1 || optOverBig caps.g2 || overBig caps.g3 || optOverBig caps.g4

/-- All captures of a hunk header are nonempty digit strings (true of
every capture the matcher produces, since they come from `(\d+)`). -/
def capsDigitsB (caps : HunkCaps) : Bool :=
  digitsOk caps.g1 && optDigitsOk caps.g2 && digitsOk caps.g3 && optDigitsOk caps.g4

/-! ### List facts about maximal runs -/

/-- `takeWhile`/`dropWhile` on a list that starts with a maximal satisfying
run: the run is taken whole and the remainder is left whole. -/
theorem takeWhile_append_all {α : Type} (p : α → Bool) (xs ys : List α)
    (hx : ∀ x ∈ xs, p x = true)
    (hy : ∀ y yz, ys = y :: yz → p y = false) :
    (xs ++ ys).takeWhile p = xs ∧ (xs ++ ys).dropWhile p = ys := by
  induction xs with
  | nil =>
    cases ys with
    | nil => simp
    | cons y yz =>
      simp [List.takeWhile_cons, List.dropWhile_cons, hy y yz rfl]
  | cons x xs ih =>
    have hpx := hx x (by simp)
    have hih := ih (fun a ha => hx a (by simp [ha]))
    simp [List.takeWhile_cons, List.dropWhile_cons, hpx, hih.1, hih.2]

/-! ### Properties of the split-view pairing -/

/-- The pairing loop emits as many rows as the longer run. -/
theorem pairRows_length (ds as : List Line) :
    (pairRows ds as).length = max ds.length as.length := by
  induction ds generalizing as with
  | nil =>
    induction as with
    | nil => simp [pairRows]
    | cons a as iha => simp [pairRows, iha]
  | cons d ds ih =>
    cases as with
    | nil =>
      have := ih []
      simp [pairRows] at this ⊢
      omega
    | cons a as =>
      have := ih as
      simp [pairRows] at this ⊢
      omega

/-- Row `j` of the pairing carries `deletes[j]` on the old side when it
exists (else an empty cell), and `adds[j]` on the new side likewise. -/
theorem pairRows_sides (ds as : List Line) (j : Nat) (row : SplitRow)
    (hj : (pairRows ds as)[j]? = some row) :
    oldSide row = ds[j]? ∧ newSide row = as[j]? := by
  induction ds generalizing as j with
  | nil =>
    induction as generalizing j with
    | nil => simp [pairRows] at hj
    | cons a as iha =>
      cases j with
      | zero =>
        simp [pairRows] at hj
        simp [← hj, oldSide, newSide]
      | succ j =>
        simp only [pairRows, List.getElem?_cons_succ] at hj
        simpa using iha j hj
  | cons d ds ih =>
    cases as with
    | nil =>
      cases j with
      | zero =>
        simp [pairRows] at hj
        simp [← hj, oldSide, newSide]
      | succ j =>
        simp only [pairRows, List.getElem?_cons_succ] at hj
        simpa using ih [] j hj
    | cons a as =>
      cases j with
      | zero =>
        simp [pairRows] at hj
        simp [← hj, oldSide, newSide]
      | succ j =>
        simp only [pairRows, List.getElem?_cons_succ] at hj
        simpa using ih as j hj

/-- The records of the paired rows are exactly the two runs (as a
multiset). -/
theorem pairRows_records (ds as : List Line) :
    ((pairRows ds as).flatMap rowRecords).Perm (ds ++ as) := by
  induction ds generalizing as with
  | nil =>
    induction as with
    | nil => simp [pairRows]
    | cons a as iha =>
      simpa [pairRows, rowRecords] using iha.cons a
  | cons d ds ih =>
    cases as with
    | nil =>
      simpa [pairRows, rowRecords] using (ih []).cons d
    | cons a as =>
      have h1 : (d :: a :: ((pairRows ds as).flatMap rowRecords)).Perm
          (d :: a :: (ds ++ as)) := ((ih as).cons a).cons d
      have h2 : (a :: (ds ++ as)).Perm (ds ++ a :: as) := List.perm_middle.symm
      simpa [pairRows, rowRecords] using h1.trans (h2.cons d)

/-- A maximal delete run followed by a maximal add run is consumed as one
block: the aligner pairs the runs and resumes on the remainder. -/
theorem alignLines_run (ds as rest : List Line) (hne : ds ≠ [])
    (hds : ∀ x ∈ ds, x.type = "delete") (has : ∀ x ∈ as, x.type = "add")
    (hra : ∀ r rs, rest = r :: rs → r.type ≠ "add")
    (hrd : as = [] → ∀ r rs, rest = r :: rs → r.type ≠ "delete") :
    alignLines (ds ++ as ++ rest) = pairRows ds as ++ alignLines rest := by
  cases ds with
  | nil => exact absurd rfl hne
  | cons d ds' =>
    have hd : d.type = "delete" := hds d (by simp)
    have hdel1 : ∀ x ∈ d :: ds', (fun x : Line => decide (x.type = "delete")) x = true :=
      fun x hx => by simp [hds x hx]
    have hdel2 : ∀ y yz, as ++ rest = y :: yz →
        (fun x : Line => decide (x.type = "delete")) y = false := by
      intro y yz hy
      cases as with
      | nil => simp [hrd rfl y yz hy]
      | cons a as' =>
        simp at hy
        simp [← hy.1, has a (by simp)]
    have hadd1 : ∀ x ∈ as, (fun x : Line => decide (x.type = "add")) x = true :=
      fun x hx => by simp [has x hx]
    have hadd2 : ∀ y yz, rest = y :: yz →
        (fun x : Line => decide (x.type = "add")) y = false := by
      intro y yz hy
      simp [hra y yz hy]
    have hsplit1 := takeWhile_append_all _ (d :: ds') (as ++ rest) hdel1 hdel2
    have hsplit2 := takeWhile_append_all _ as rest hadd1 hadd2
    have hshape : (d :: ds') ++ as ++ rest = d :: (ds' ++ (as ++ rest)) := by simp
    rw [hshape, alignLines_eq]
    simp only []
    rw [if_neg (by simp [hd]), if_pos hd]
    have hback : d :: (ds' ++ (as ++ rest)) = (d :: ds') ++ (as ++ rest) := by simp
    simp only [hback, hsplit1.1, hsplit1.2, hsplit2.1, hsplit2.2]

/-- Every record of a hunk whose lines all have a known type is placed by
the aligner exactly once (as a multiset identity on placements). -/
theorem alignLines_records (ls : List Line)
    (hty : ∀ l ∈ ls, l.type = "context" ∨ l.type = "add" ∨ l.type = "delete") :
    ((alignLines ls).flatMap rowRecords).Perm ls := by
  cases hL : ls with
  | nil => simp [alignLines, alignLinesF]
  | cons l rest =>
    subst hL
    rw [alignLines_eq]
    simp only []
    by_cases hc : l.type = "context"
    · rw [if_pos hc]
      simpa [rowRecords] using
        (alignLines_records rest (fun x hx => hty x (by simp [hx]))).cons l
    · rw [if_neg hc]
      by_cases hd : l.type = "delete"
      · rw [if_pos hd]
        have h1 := List.takeWhile_append_dropWhile
          (fun x : Line => decide (x.type = "delete")) (l :: rest)
        have h2 := List.takeWhile_append_dropWhile
          (fun x : Line => decide (x.type = "add"))
          (List.dropWhile (fun x : Line => decide (x.type = "delete")) (l :: rest))
        have hmem : ∀ x ∈ (List.dropWhile (fun x : Line => decide (x.type = "delete"))
            (l :: rest)).dropWhile (fun x : Line => decide (x.type = "add")),
            x ∈ l :: rest := by
          intro x hx
          exact ((List.dropWhile_sublist _).trans (List.dropWhile_sublist _)).mem hx
        have hrec := alignLines_records
          ((List.dropWhile (fun x : Line => decide (x.type = "delete"))
            (l :: rest)).dropWhile (fun x : Line => decide (x.type = "add")))
          (fun x hx => hty x (hmem x hx))
        have hperm := (pairRows_records
          ((l :: rest).takeWhile (fun x : Line => decide (x.type = "delete")))
          ((List.dropWhile (fun x : Line => decide (x.type = "delete"))
            (l :: rest)).takeWhile (fun x : Line => decide (x.type = "add")))).append hrec
        rw [List.append_assoc, h2, h1] at hperm
        simpa [List.flatMap_append] using hperm
      · rw [if_neg hd]
        by_cases ha : l.type = "add"
        · rw [if_pos ha]
          simpa [rowRecords] using
            (alignLines_records rest (fun x hx => hty x (by simp [hx]))).cons l
        · rcases hty l (by simp) with h | h | h
          · exact absurd h hc
          · exact absurd h ha
          · exact absurd h hd
termination_by ls.length
decreasing_by
  · rw [hL]
    simp
  · rw [hL, List.dropWhile_cons_of_pos (by simp [hd])]
    have h1 : (List.dropWhile (fun x : Line => decide (x.type = "delete")) rest).length ≤
        rest.length := (List.dropWhile_sublist _).length_le
    have h2 : (List.dropWhile (fun x : Line => decide (x.type = "add"))
        (List.dropWhile (fun x : Line => decide (x.type = "delete")) rest)).length ≤
        (List.dropWhile (fun x : Line => decide (x.type = "delete")) rest).length :=
      (List.dropWhile_sublist _).length_le
    simp
    omega
  · rw [hL]
    simp

/-! ### Consecutive numbering of the hunk-body counters -/

theorem consecFrom_length (o : Int) (k : Nat) : (consecFrom o k).length = k := by
  unfold consecFrom
  rw [List.length_map, List.length_range]

theorem consecFrom_snoc (o : Int) (k : Nat) :
    consecFrom o (k + 1) = consecFrom o k ++ [o + (k : Int)] := by
  simp [consecFrom, List.range_succ]

theorem consecFrom_succ (o : Int) (k : Nat) :
    consecFrom o (k + 1) = o :: consecFrom (o + 1) k := by
  induction k with
  | zero =>
    unfold consecFrom
    rw [List.range_succ, List.range_zero]
    norm_num
  | succ k ih =>
    rw [consecFrom_snoc, ih, consecFrom_snoc, List.cons_append]
    have he : (o + ((k : Int) + 1)) = o + 1 + (k : Int) := by ring
    push_cast
    rw [he]

theorem oldNums_cons_context (c : String) (o n : Int) (ls : List Line) :
    oldNums (⟨"context", c, o, n⟩ :: ls) = o :: oldNums ls := by
  simp [oldNums]

theorem oldNums_cons_add (c : String) (n : Int) (ls : List Line) :
    oldNums (⟨"add", c, 0, n⟩ :: ls) = oldNums ls := by
  simp [oldNums]

theorem oldNums_cons_delete (c : String) (o : Int) (ls : List Line) :
    oldNums (⟨"delete", c, o, 0⟩ :: ls) = o :: oldNums ls := by
  simp [oldNums]

theorem newNums_cons_context (c : String) (o n : Int) (ls : List Line) :
    newNums (⟨"context", c, o, n⟩ :: ls) = n :: newNums ls := by
  simp [newNums]

theorem newNums_cons_add (c : String) (n : Int) (ls : List Line) :
    newNums (⟨"add", c, 0, n⟩ :: ls) = n :: newNums ls := by
  simp [newNums]

theorem newNums_cons_delete (c : String) (o : Int) (ls : List Line) :
    newNums (⟨"delete", c, o, 0⟩ :: ls) = newNums ls := by
  simp [newNums]

/-- The body loop numbers `context`/`delete` lines consecutively from `o`
and `context`/`add` lines consecutively from `n`. -/
theorem parseHunkBody_nums (lines : List String) (o n : Int)
    (ls : List Line) (rem : List String) (h : parseHunkBody lines o n = (ls, rem)) :
    ∃ k1 k2, oldNums ls = consecFrom o k1 ∧ newNums ls = consecFrom n k2 := by
  induction lines generalizing o n ls rem with
  | nil =>
    simp [parseHunkBody] at h
    obtain ⟨h1, -⟩ := h
    subst h1
    exact ⟨0, 0, by simp [oldNums, consecFrom], by simp [newNums, consecFrom]⟩
  | cons l rest ih =>
    rw [parseHunkBody] at h
    split at h
    · simp at h
      obtain ⟨h1, -⟩ := h
      subst h1
      exact ⟨0, 0, by simp [oldNums, consecFrom], by simp [newNums, consecFrom]⟩
    · split at h
      · exact ih _ _ _ _ h
      · split at h
        · simp at h
          obtain ⟨h1, -⟩ := h
          subst h1
          exact ⟨0, 0, by simp [oldNums, consecFrom], by simp [newNums, consecFrom]⟩
        · split at h
          · rcases hpb : parseHunkBody rest (o + 1) (n + 1) with ⟨ls2, rem2⟩
            rw [hpb] at h
            simp at h
            obtain ⟨k1, k2, ho, hn⟩ := ih _ _ _ _ hpb
            refine ⟨k1 + 1, k2 + 1, ?_, ?_⟩
            · rw [← h.1, oldNums_cons_context, ho, ← consecFrom_succ]
            · rw [← h.1, newNums_cons_context, hn, ← consecFrom_succ]
          · split at h
            · rcases hpb : parseHunkBody rest o (n + 1) with ⟨ls2, rem2⟩
              rw [hpb] at h
              simp at h
              obtain ⟨k1, k2, ho, hn⟩ := ih _ _ _ _ hpb
              refine ⟨k1, k2 + 1, ?_, ?_⟩
              · rw [← h.1, oldNums_cons_add, ho]
              · rw [← h.1, newNums_cons_add, hn, ← consecFrom_succ]
            · split at h
              · rcases hpb : parseHunkBody rest (o + 1) n with ⟨ls2, rem2⟩
                rw [hpb] at h
                simp at h
                obtain ⟨k1, k2, ho, hn⟩ := ih _ _ _ _ hpb
                refine ⟨k1 + 1, k2, ?_, ?_⟩
                · rw [← h.1, oldNums_cons_delete, ho, ← consecFrom_succ]
                · rw [← h.1, newNums_cons_delete, hn]
              · simp at h
                obtain ⟨h1, -⟩ := h
                subst h1
                exact ⟨0, 0, by simp [oldNums, consecFrom], by simp [newNums, consecFrom]⟩

/-! ### Facts about `parseHunk` -/

theorem goodNums_of_consec {ls : List Line} {o n : Int} {k1 k2 : Nat}
    (ho : oldNums ls = consecFrom o k1) (hn : newNums ls = consecFrom n k2) :
    oldNums ls = consecFrom o (oldNums ls).length ∧
    newNums ls = consecFrom n (newNums ls).length := by
  constructor
  · rw [ho, consecFrom_length]
  · rw [hn, consecFrom_length]

/-- A successfully parsed hunk is consecutively numbered from its header's
start values. -/
theorem parseHunk_nums {caps : HunkCaps} {lines : List String} {hk : Hunk}
    {rem : List String} (h : parseHunk caps lines = .ok (hk, rem)) :
    GoodNums hk := by
  unfold parseHunk at h
  split at h
  · exact absurd h (by simp)
  split at h
  · exact absurd h (by simp)
  split at h
  · exact absurd h (by simp)
  split at h
  · exact absurd h (by simp)
  rename_i x1 oldStart e1 x2 oldLines e2 x3 newStart e3 x4 newLines e4
  rcases hpb : parseHunkBody lines oldStart newStart with ⟨ls, rem2⟩
  rw [hpb] at h
  simp at h
  obtain ⟨k1, k2, ho, hn⟩ := parseHunkBody_nums lines oldStart newStart ls rem2 hpb
  obtain ⟨hh, -⟩ := h
  rw [← hh]
  exact goodNums_of_consec ho hn

/-- The reconstructed header and the count defaults of a parsed hunk: the
counts default to `1` exactly when omitted, and the header reproduces the
captures as written, appending the trimmed function context when it is
nonempty. -/
theorem parseHunk_header {caps : HunkCaps} {lines : List String} {hk : Hunk}
    {rem : List String} (h : parseHunk caps lines = .ok (hk, rem)) :
    hk.header = "@@ -" ++ caps.g1 ++
      (match caps.g2 with | some s => "," ++ s | none => "") ++
      " +" ++ caps.g3 ++
      (match caps.g4 with | some s => "," ++ s | none => "") ++
      " @@" ++
      (if goTrimSpace caps.g5 = "" then "" else " " ++ goTrimSpace caps.g5) ∧
    (caps.g2 = none → hk.oldLines = 1) ∧ (caps.g4 = none → hk.newLines = 1) ∧
    atoi caps.g1 = .ok hk.oldStart ∧ atoiDefault1 caps.g2 = .ok hk.oldLines ∧
    atoi caps.g3 = .ok hk.newStart ∧ atoiDefault1 caps.g4 = .ok hk.newLines := by
  unfold parseHunk at h
  split at h
  · exact absurd h (by simp)
  split at h
  · exact absurd h (by simp)
  split at h
  · exact absurd h (by simp)
  split at h
  · exact absurd h (by simp)
  rename_i x1 oldStart h1 x2 oldLines h2 x3 newStart h3 x4 newLines h4
  rcases hpb : parseHunkBody lines oldStart newStart with ⟨ls, rem2⟩
  rw [hpb] at h
  simp at h
  obtain ⟨hh, -⟩ := h
  rw [← hh]
  refine ⟨by simp, ?_, ?_, h1, h2, h3, h4⟩
  · intro hg2
    rw [hg2] at h2
    simp [atoiDefault1] at h2
    simp [← h2]
  · intro hg4
    rw [hg4] at h4
    simp [atoiDefault1] at h4
    simp [← h4]

/-! ### Where the hunks of a parse result come from -/

/-- The extended-header loop never touches the hunks of its file. -/
theorem parseExtHeaders_hunks (file : FileDiff) (lines : List String) :
    (parseExtHeaders file lines).1.hunks = file.hunks := by
  induction lines generalizing file with
  | nil => simp [parseExtHeaders]
  | cons l rest ih =>
    simp only [parseExtHeaders]
    split
    · rfl
    · split
      · exact ih _
      · split
        · exact ih _
        · split
          · simp
            split <;> split <;> split <;> rfl
          · split
            · split
              · split
                · simp [deriveStatus]
                  split <;> rfl
                · simp [deriveStatus]
                  split <;> rfl
              · simp [deriveStatus]
                split <;> rfl
            · split
              · rfl
              · exact ih _

/-- Every hunk of the file produced by the hunks loop was already on the
file or was produced by `parseHunk` on the captures of a line of the input
that matches the hunk-header pattern. -/
theorem parseHunksLoop_hunks (file : FileDiff) (lines : List String)
    {f2 : FileDiff} {rem : List String}
    (h : parseHunksLoop file lines = .ok (f2, rem)) :
    ∀ hk ∈ f2.hunks, hk ∈ file.hunks ∨ ∃ l ∈ lines, ∃ caps body rem2,
      matchHunkHeader l = some caps ∧ parseHunk caps body = .ok (hk, rem2) := by
  cases hL : lines with
  | nil =>
    subst hL
    simp [parseHunksLoop, parseHunksLoopF] at h
    rw [← h.1]
    intro hk hmem
    exact Or.inl hmem
  | cons l rest =>
    subst hL
    rw [parseHunksLoop_eq] at h
    simp only [] at h
    by_cases hd : strStarts "diff --git " l
    · rw [if_pos hd] at h
      simp at h
      rw [← h.1]
      intro hk hmem
      exact Or.inl hmem
    · rw [if_neg hd] at h
      cases hmh : matchHunkHeader l with
      | none =>
        rw [hmh] at h
        intro hk hmem
        rcases parseHunksLoop_hunks file rest h hk hmem with hin | ⟨l2, hl2, rest2⟩
        · exact Or.inl hin
        · exact Or.inr ⟨l2, by simp [hl2], rest2⟩
      | some caps =>
        simp only [hmh] at h
        split at h
        · simp at h
        · rename_i hk0 rem0 hpk
          intro hk hmem
          rcases parseHunksLoop_hunks _ rem0 h hk hmem with hin | ⟨l2, hl2, rest2⟩
          · simp at hin
            rcases hin with hin | hin
            · exact Or.inl hin
            · exact Or.inr ⟨l, by simp, caps, rest, rem0, hmh, hin ▸ hpk⟩
          · exact Or.inr ⟨l2, by
              simp only [List.mem_cons]
              exact Or.inr ((parseHunk_suffix hpk).mem hl2), rest2⟩
termination_by lines.length
decreasing_by
  · rw [hL]
    simp
  · rw [hL]
    rename_i h1 h2 hpk
    have := (parseHunk_suffix hpk).length_le
    simp
    omega

/-- Every hunk of a parsed file block comes from `parseHunk` applied to
the captures of a matching line of the block. -/
theorem parseFileBlock_hunks {o n : String} {lines rem : List String}
    {f : FileDiff} (h : parseFileBlock o n lines = .ok (f, rem)) :
    ∀ hk ∈ f.hunks, ∃ l ∈ lines, ∃ caps body rem2,
      matchHunkHeader l = some caps ∧ parseHunk caps body = .ok (hk, rem2) := by
  unfold parseFileBlock at h
  split at h
  rename_i f1 r1 hext
  split at h
  · exact absurd h (by simp)
  · rename_i f2 r2 hloop
    simp at h
    obtain ⟨h1, -⟩ := h
    have hfh : f.hunks = f2.hunks := by
      rw [← h1]
      split <;> rfl
    intro hk hmem
    rw [hfh] at hmem
    rcases parseHunksLoop_hunks f1 r1 hloop hk hmem with hin | ⟨l2, hl2, rest2⟩
    · have : f1.hunks = [] := by
        have := parseExtHeaders_hunks ⟨o, n, "", false, []⟩ lines
        rw [hext] at this
        exact this
      rw [this] at hin
      simp at hin
    · refine ⟨l2, ?_, rest2⟩
      have hr1 : r1 <:+ lines := by
        have hs := parseExtHeaders_suffix ⟨o, n, "", false, []⟩ lines
        rw [hext] at hs
        exact hs
      exact hr1.mem hl2

/-- Every hunk of every file of a successful outer parse loop comes from
`parseHunk` on the captures of a matching input line. -/
theorem parseFilesLoop_hunks (lines : List String) {fs : List FileDiff}
    (h : parseFilesLoop lines = .ok fs) :
    ∀ f ∈ fs, ∀ hk ∈ f.hunks, ∃ l ∈ lines, ∃ caps body rem2,
      matchHunkHeader l = some caps ∧ parseHunk caps body = .ok (hk, rem2) := by
  cases hL : lines with
  | nil =>
    subst hL
    simp [parseFilesLoop, parseFilesLoopF] at h
    subst h
    simp
  | cons l rest =>
    subst hL
    rw [parseFilesLoop_eq] at h
    simp only [] at h
    cases hmd : matchDiffHeader l with
    | none =>
      rw [hmd] at h
      intro f hf hk hmem
      obtain ⟨l2, hl2, rest2⟩ := parseFilesLoop_hunks rest h f hf hk hmem
      exact ⟨l2, by simp [hl2], rest2⟩
    | some pq =>
      rcases pq with ⟨o, n⟩
      simp only [hmd] at h
      split at h
      · simp at h
      · rename_i f0 rem0 hblk
        split at h
        · simp at h
        · rename_i fs0 hrec
          simp at h
          subst h
          intro f hf hk hmem
          simp at hf
          rcases hf with hf | hf
          · subst hf
            obtain ⟨l2, hl2, rest2⟩ := parseFileBlock_hunks hblk hk hmem
            exact ⟨l2, by simp [hl2], rest2⟩
          · obtain ⟨l2, hl2, rest2⟩ := parseFilesLoop_hunks rem0 hrec f hf hk hmem
            refine ⟨l2, ?_, rest2⟩
            simp only [List.mem_cons]
            exact Or.inr ((parseFileBlock_suffix hblk).mem hl2)
termination_by lines.length
decreasing_by
  · rw [hL]
    simp
  · rw [hL]
    rename parseFileBlock _ _ _ = Except.ok _ => hblk
    have := (parseFileBlock_suffix hblk).length_le
    simp
    omega

/-- Parse-level origin of hunks: every hunk of every file of a successful
parse comes from `parseHunk` on the captures of an input line matching the
hunk-header pattern. -/
theorem Parse_hunks {input : String} {r : DiffResult} (h : Parse input = .ok r) :
    ∀ f ∈ r.files, ∀ hk ∈ f.hunks, ∃ l ∈ linesOf input, ∃ caps body rem2,
      matchHunkHeader l = some caps ∧ parseHunk caps body = .ok (hk, rem2) := by
  unfold Parse at h
  split at h
  · simp at h
    subst h
    simp
  · split at h
    · simp at h
    · rename_i fs hfs
      simp at h
      subst h
      exact parseFilesLoop_hunks _ hfs

/-! ### The error behaviour of `parseHunk` and its callers -/

theorem atoi_err {s e : String} (hd : digitsOk s = true)
    (h : atoi s = .error e) : overBig s = true := by
  unfold digitsOk at hd
  unfold atoi at h
  rw [if_pos hd] at h
  split at h
  · exact absurd h (by simp)
  · rename_i hle
    simp [overBig]
    omega

theorem atoi_ok {s : String} (hd : digitsOk s = true) (hf : overBig s = false) :
    atoi s = .ok (Int.ofNat (digitsToNat s.data)) := by
  unfold digitsOk at hd
  unfold overBig at hf
  unfold atoi
  rw [if_pos hd, if_pos (by simp at hf; omega)]

theorem atoiDefault1_error {og : Option String} {e : String}
    (h : atoiDefault1 og = .error e) : ∃ s, og = some s ∧ atoi s = .error e := by
  cases og with
  | none => simp [atoiDefault1] at h
  | some s => exact ⟨s, rfl, h⟩

theorem atoiDefault1_ok {og : Option String} (hd : optDigitsOk og = true)
    (hf : optOverBig og = false) : ∃ v, atoiDefault1 og = .ok v := by
  cases og with
  | none => exact ⟨1, rfl⟩
  | some s => exact ⟨_, atoi_ok hd hf⟩

/-- `parseHunk` can only fail when a present capture overflows the Go
`int` range (given that all captures are digit strings, as the matcher
guarantees). -/
theorem parseHunk_error_overflow {caps : HunkCaps} {body : List String} {e : String}
    (hd : capsDigitsB caps = true) (h : parseHunk caps body = .error e) :
    capsOverflowB caps = true := by
  simp only [capsDigitsB, Bool.and_eq_true] at hd
  obtain ⟨⟨⟨hd1, hd2⟩, hd3⟩, hd4⟩ := hd
  unfold parseHunk at h
  cases h1 : atoi caps.g1 with
  | error e1 =>
    simp [capsOverflowB, atoi_err hd1 h1]
  | ok v1 =>
    rw [h1] at h
    cases h2 : atoiDefault1 caps.g2 with
    | error e2 =>
      obtain ⟨s, hs, he⟩ := atoiDefault1_error h2
      have : overBig s = true := by
        apply atoi_err ?_ he
        rw [hs] at hd2
        exact hd2
      simp [capsOverflowB, optOverBig, hs, this]
    | ok v2 =>
      rw [h2] at h
      cases h3 : atoi caps.g3 with
      | error e3 =>
        simp [capsOverflowB, atoi_err hd3 h3]
      | ok v3 =>
        rw [h3] at h
        cases h4 : atoiDefault1 caps.g4 with
        | error e4 =>
          obtain ⟨s, hs, he⟩ := atoiDefault1_error h4
          have : overBig s = true := by
            apply atoi_err ?_ he
            rw [hs] at hd4
            exact hd4
          simp [capsOverflowB, optOverBig, hs, this]
        | ok v4 =>
          rw [h4] at h
          simp at h

/-- When every present capture fits the Go `int` range, `parseHunk`
succeeds. -/
theorem parseHunk_ok_of_fits {caps : HunkCaps} (body : List String)
    (hd : capsDigitsB caps = true) (hf : capsOverflowB caps = false) :
    ∃ hk rem2, parseHunk caps body = .ok (hk, rem2) := by
  cases hp : parseHunk caps body with
  | error e =>
    have hov := parseHunk_error_overflow hd hp
    rw [hf] at hov
    exact absurd hov (by simp)
  | ok pr => exact ⟨pr.1, pr.2, rfl⟩


theorem takeDigits_fst {r d t : List Char} (h : takeDigits r = (d, t)) :
    d = r.takeWhile Char.isDigit := by
  unfold takeDigits at h
  simp at h
  exact h.1.symm

theorem optCommaDigits_some {r d t : List Char}
    (h : optCommaDigits r = (some d, t)) :
    d ≠ [] ∧ d.all Char.isDigit = true := by
  unfold optCommaDigits at h
  split at h
  · rename_i t0 heq0
    split at h
    rename_i d2 t2 htd
    split at h
    · simp at h
    · rename_i hne
      simp at h
      obtain ⟨hd, -⟩ := h
      subst hd
      refine ⟨by simpa using hne, ?_⟩
      rw [takeDigits_fst htd]
      exact List.all_takeWhile
  · simp at h

/-- Every capture produced by the hunk-header matcher is a nonempty digit
string. -/
theorem matchHunkHeader_digits {l : String} {caps : HunkCaps}
    (h : matchHunkHeader l = some caps) : capsDigitsB caps = true := by
  unfold matchHunkHeader at h
  split at h
  · rename_i r0 heqD
    rcases h1 : takeDigits r0 with ⟨d1, r1⟩
    rw [h1] at h
    simp only [] at h
    split at h
    · simp at h
    · rename_i hd1ne
      rcases h2 : optCommaDigits r1 with ⟨g2, r2⟩
      rw [h2] at h
      simp only [] at h
      split at h
      · rename_i r3
        rcases h3 : takeDigits r3 with ⟨d3, r4⟩
        rw [h3] at h
        simp only [] at h
        split at h
        · simp at h
        · rename_i hd3ne
          rcases h4 : optCommaDigits r4 with ⟨g4, r5⟩
          rw [h4] at h
          simp only [] at h
          split at h
          · rename_i g5
            simp at h
            rw [← h]
            simp only [capsDigitsB, digitsOk, optDigitsOk, Bool.and_eq_true]
            refine ⟨⟨⟨?_, ?_⟩, ?_⟩, ?_⟩
            · simp
              constructor
              · simpa using hd1ne
              · rw [takeDigits_fst h1]
                intro x hx
                exact List.mem_takeWhile_imp hx
            · cases g2 with
              | none => simp
              | some d =>
                obtain ⟨hne, hall⟩ := optCommaDigits_some h2
                simp [digitsOk, hne, hall]
            · simp
              constructor
              · simpa using hd3ne
              · rw [takeDigits_fst h3]
                intro x hx
                exact List.mem_takeWhile_imp hx
            · cases g4 with
              | none => simp
              | some d =>
                obtain ⟨hne, hall⟩ := optCommaDigits_some h4
                simp [digitsOk, hne, hall]
          · simp at h
      · simp at h
  · simp at h

/-- A failing hunks loop pinpoints an overflowing matched hunk header
among its input lines. -/
theorem parseHunksLoop_error (file : FileDiff) (lines : List String) {e : String}
    (h : parseHunksLoop file lines = .error e) :
    ∃ l ∈ lines, ∃ caps, matchHunkHeader l = some caps ∧ capsOverflowB caps = true := by
  cases hL : lines with
  | nil =>
    subst hL
    simp [parseHunksLoop, parseHunksLoopF] at h
  | cons l rest =>
    subst hL
    rw [parseHunksLoop_eq] at h
    simp only [] at h
    by_cases hd : strStarts "diff --git " l
    · rw [if_pos hd] at h
      simp at h
    · rw [if_neg hd] at h
      cases hmh : matchHunkHeader l with
      | none =>
        rw [hmh] at h
        obtain ⟨l2, hl2, rest2⟩ := parseHunksLoop_error file rest h
        exact ⟨l2, by simp [hl2], rest2⟩
      | some caps =>
        simp only [hmh] at h
        split at h
        · rename_i e0 hpk
          exact ⟨l, by simp, caps, hmh,
            parseHunk_error_overflow (matchHunkHeader_digits hmh) hpk⟩
        · rename_i hk0 rem0 hpk
          obtain ⟨l2, hl2, rest2⟩ := parseHunksLoop_error _ rem0 h
          refine ⟨l2, ?_, rest2⟩
          simp only [List.mem_cons]
          exact Or.inr ((parseHunk_suffix hpk).mem hl2)
termination_by lines.length
decreasing_by
  · rw [hL]
    simp
  · rw [hL]
    rename parseHunk _ _ = Except.ok _ => hpk2
    have := (parseHunk_suffix hpk2).length_le
    simp
    omega

/-- A failing file block pinpoints an overflowing matched hunk header
among its lines. -/
theorem parseFileBlock_error {o n : String} {lines : List String} {e : String}
    (h : parseFileBlock o n lines = .error e) :
    ∃ l ∈ lines, ∃ caps, matchHunkHeader l = some caps ∧ capsOverflowB caps = true := by
  unfold parseFileBlock at h
  split at h
  rename_i f1 r1 hext
  split at h
  · rename_i hloop
    obtain ⟨l2, hl2, rest2⟩ := parseHunksLoop_error f1 r1 hloop
    refine ⟨l2, ?_, rest2⟩
    have hr1 : r1 <:+ lines := by
      have hs := parseExtHeaders_suffix ⟨o, n, "", false, []⟩ lines
      rw [hext] at hs
      exact hs
    exact hr1.mem hl2
  · simp at h

/-- A failing outer loop pinpoints an overflowing matched hunk header
among the input lines. -/
theorem parseFilesLoop_error (lines : List String) {e : String}
    (h : parseFilesLoop lines = .error e) :
    ∃ l ∈ lines, ∃ caps, matchHunkHeader l = some caps ∧ capsOverflowB caps = true := by
  cases hL : lines with
  | nil =>
    subst hL
    simp [parseFilesLoop, parseFilesLoopF] at h
  | cons l rest =>
    subst hL
    rw [parseFilesLoop_eq] at h
    simp only [] at h
    cases hmd : matchDiffHeader l with
    | none =>
      rw [hmd] at h
      obtain ⟨l2, hl2, rest2⟩ := parseFilesLoop_error rest h
      exact ⟨l2, by simp [hl2], rest2⟩
    | some pq =>
      rcases pq with ⟨o, n⟩
      simp only [hmd] at h
      split at h
      · rename_i e0 hblk
        obtain ⟨l2, hl2, rest2⟩ := parseFileBlock_error hblk
        exact ⟨l2, by simp [hl2], rest2⟩
      · rename_i f0 rem0 hblk
        split at h
        · rename_i e0 hrec
          obtain ⟨l2, hl2, rest2⟩ := parseFilesLoop_error rem0 hrec
          refine ⟨l2, ?_, rest2⟩
          simp only [List.mem_cons]
          exact Or.inr ((parseFileBlock_suffix hblk).mem hl2)
        · simp at h
termination_by lines.length
decreasing_by
  · rw [hL]
    simp
  · rw [hL]
    rename parseFileBlock _ _ _ = Except.ok _ => hblk2
    have := (parseFileBlock_suffix hblk2).length_le
    simp
    omega

/-- A failing `Parse` pinpoints an overflowing matched hunk header among
the input's lines. -/
theorem Parse_error {input : String} {e : String} (h : Parse input = .error e) :
    ∃ l ∈ linesOf input, ∃ caps,
      matchHunkHeader l = some caps ∧ capsOverflowB caps = true := by
  unfold Parse at h
  split at h
  · simp at h
  · split at h
    · rename_i e0 hfl
      simp at h
      subst h
      exact parseFilesLoop_error _ hfl
    · simp at h

/-! ### Support lemmas for the remaining claims -/

/-- Decidable equality of `Except` results, for evaluating concrete runs. -/
instance instDecEqExcept {e a : Type} [DecidableEq e] [DecidableEq a] :
    DecidableEq (Except e a) := fun x y =>
  match x, y with
  | .error v, .error w =>
    if h : v = w then isTrue (by rw [h]) else isFalse (by simp [h])
  | .ok v, .ok w =>
    if h : v = w then isTrue (by rw [h]) else isFalse (by simp [h])
  | .error _, .ok _ => isFalse (by simp)
  | .ok _, .error _ => isFalse (by simp)

/-- An input without any diff-header line parses to the empty file list. -/
theorem parseFilesLoop_noHeader (lines : List String)
    (h : ∀ l ∈ lines, matchDiffHeader l = none) : parseFilesLoop lines = .ok [] := by
  induction lines with
  | nil => rfl
  | cons l rest ih =>
    rw [parseFilesLoop_eq]
    simp only [h l (by simp)]
    exact ih (fun x hx => h x (by simp [hx]))

theorem matchTail_starts {p s m : String} (h : matchTail p s = some m) :
    strStarts p s = true := by
  unfold matchTail at h
  split at h
  · rename_i hc
    simp at hc
    exact hc.1
  · simp at h

theorem matchTail_none_of {p s : String} (h : strStarts p s = false) :
    matchTail p s = none := by
  unfold matchTail
  rw [h]
  simp

theorem strStarts_head {p s : String} {c : Char} {cs : List Char}
    (hp : p.data = c :: cs) (h : strStarts p s = true) :
    ∃ ds, s.data = c :: ds := by
  unfold strStarts at h
  rw [hp] at h
  cases hs : s.data with
  | nil =>
    rw [hs] at h
    simp [List.isPrefixOf] at h
  | cons d ds =>
    rw [hs] at h
    simp [List.isPrefixOf] at h
    exact ⟨ds, by rw [h.1]⟩

/-- Two patterns with different first characters cannot both be prefixes. -/
theorem strStarts_excl {p q s : String} {c d : Char} {cp cq : List Char}
    (hp : p.data = c :: cp) (hq : q.data = d :: cq) (hne : c ≠ d)
    (h : strStarts p s = true) : strStarts q s = false := by
  obtain ⟨ds, hs⟩ := strStarts_head hp h
  unfold strStarts
  rw [hq, hs]
  simp [List.isPrefixOf]
  intro hdc
  exact absurd hdc.symm hne

/-- A line matched by the binary pattern reaches the binary branch of the
extended-header loop: it is not a diff header prefix and matches neither
rename pattern. -/
theorem matchBinary_excl {l : String} {pr : String × String}
    (h : matchBinary l = some pr) :
    strStarts "diff --git " l = false ∧ matchRenameFrom l = none ∧
      matchRenameTo l = none := by
  have hstart : strStarts "Binary files " l = true := by
    unfold matchBinary at h
    cases hmt : matchTail "Binary files " l with
    | none => rw [hmt] at h; simp at h
    | some m => exact matchTail_starts hmt
  refine ⟨?_, ?_, ?_⟩
  · exact strStarts_excl rfl rfl (by decide) hstart
  · exact matchTail_none_of (strStarts_excl rfl rfl (by decide) hstart)
  · exact matchTail_none_of (strStarts_excl rfl rfl (by decide) hstart)

/-! ### Claim theorems -/

/-- C3: for every hunk produced by `Parse`, the `oldNum` values of its
`context` and `delete` lines, in sequence order, are exactly `oldStart`,
`oldStart+1`, ... and the `newNum` values of its `context` and `add` lines
are exactly `newStart`, `newStart+1`, ... (`GoodNums`). -/
theorem C3_hunk_numbering {input : String} {r : DiffResult}
    (h : Parse input = .ok r) :
    ∀ f ∈ r.files, ∀ hk ∈ f.hunks, GoodNums hk := by
  intro f hf hk hhk
  obtain ⟨l, hl, caps, body, rem2, hmh, hpk⟩ := Parse_hunks h f hf hk hhk
  exact parseHunk_nums hpk

/-- Witness for C3 at a concrete two-hunk input. -/
theorem C3_witness :
    Parse "diff --git a/f b/f\n@@ -3,2 +4,3 @@\n x\n-y\n+Y\n+Z" =
      .ok ⟨[⟨"f", "f", "modified", false,
        [⟨3, 2, 4, 3, "@@ -3,2 +4,3 @@",
          [⟨"context", "x", 3, 4⟩, ⟨"delete", "y", 4, 0⟩,
           ⟨"add", "Y", 0, 5⟩, ⟨"add", "Z", 0, 6⟩]⟩]⟩]⟩ ∧
    (∀ f ∈ (⟨[⟨"f", "f", "modified", false,
        [⟨3, 2, 4, 3, "@@ -3,2 +4,3 @@",
          [⟨"context", "x", 3, 4⟩, ⟨"delete", "y", 4, 0⟩,
           ⟨"add", "Y", 0, 5⟩, ⟨"add", "Z", 0, 6⟩]⟩]⟩]⟩ : DiffResult).files,
      ∀ hk ∈ f.hunks, GoodNums hk) :=
  ⟨by decide,
   @C3_hunk_numbering "diff --git a/f b/f\n@@ -3,2 +4,3 @@\n x\n-y\n+Y\n+Z"
     ⟨[⟨"f", "f", "modified", false,
       [⟨3, 2, 4, 3, "@@ -3,2 +4,3 @@",
         [⟨"context", "x", 3, 4⟩, ⟨"delete", "y", 4, 0⟩,
          ⟨"add", "Y", 0, 5⟩, ⟨"add", "Z", 0, 6⟩]⟩]⟩]⟩ (by decide)⟩

/-- C4: a maximal run of `d` deletes followed by a maximal run of `a` adds
produces exactly `max d a` rows, row `j` carrying `deletes[j]` on the old
side when `j < d` (else an empty cell) and `adds[j]` on the new side when
`j < a`; in particular one delete followed by two adds yields two rows,
the first pairing the delete with the first add, the second with an empty
old side. -/
theorem C4_split_pairing :
    (∀ (ds as rest : List Line), ds ≠ [] → (∀ x ∈ ds, x.type = "delete") →
      (∀ x ∈ as, x.type = "add") →
      (∀ r rs, rest = r :: rs → r.type ≠ "add") →
      (as = [] → ∀ r rs, rest = r :: rs → r.type ≠ "delete") →
      alignLines (ds ++ as ++ rest) = pairRows ds as ++ alignLines rest) ∧
    (∀ ds as : List Line, (pairRows ds as).length = max ds.length as.length) ∧
    (∀ (ds as : List Line) (j : Nat) (row : SplitRow),
      (pairRows ds as)[j]? = some row →
      oldSide row = ds[j]? ∧ newSide row = as[j]?) ∧
    (∀ d a1 a2 : Line, d.type = "delete" → a1.type = "add" → a2.type = "add" →
      alignLines [d, a1, a2] = [.pair d a1, .addOnly a2]) := by
  refine ⟨alignLines_run, pairRows_length, pairRows_sides, ?_⟩
  intro d a1 a2 hd ha1 ha2
  have hrun := alignLines_run [d] [a1, a2] [] (by simp)
    (by simp [hd]) (by simp [ha1, ha2]) (by simp) (by simp)
  simpa [pairRows, alignLines, alignLinesF] using hrun

/-- Witness for C4 at one delete plus two adds. -/
theorem C4_witness :
    alignLines [⟨"delete", "x", 1, 0⟩, ⟨"add", "X", 0, 1⟩, ⟨"add", "Y", 0, 2⟩] =
      [.pair ⟨"delete", "x", 1, 0⟩ ⟨"add", "X", 0, 1⟩,
       .addOnly ⟨"add", "Y", 0, 2⟩] ∧
    (pairRows [⟨"delete", "x", 1, 0⟩] [⟨"add", "X", 0, 1⟩, ⟨"add", "Y", 0, 2⟩]).length =
      max 1 2 :=
  ⟨C4_split_pairing.2.2.2 _ _ _ (by decide) (by decide) (by decide),
   C4_split_pairing.2.1 _ _⟩

/-- C5: for a hunk whose records all have type `context`, `add` or
`delete`, the split renderer places every input record in exactly one row
on exactly one side: the concatenated row placements are a permutation of
the input records (a context record shown on both sides counts once). -/
theorem C5_no_loss (h : Hunk)
    (hty : ∀ l ∈ h.lines, l.type = "context" ∨ l.type = "add" ∨ l.type = "delete") :
    ((renderHunkSplitRows h).flatMap rowRecords).Perm h.lines := by
  unfold renderHunkSplitRows
  simpa [rowRecords] using alignLines_records h.lines hty

/-- Witness for C5 at a concrete mixed hunk. -/
theorem C5_witness :
    (((renderHunkSplitRows ⟨1, 3, 1, 3, "@@ -1,3 +1,3 @@",
        [⟨"context", "a", 1, 1⟩, ⟨"delete", "b", 2, 0⟩, ⟨"add", "B", 0, 2⟩,
         ⟨"delete", "c", 3, 0⟩]⟩).flatMap rowRecords).Perm
      [⟨"context", "a", 1, 1⟩, ⟨"delete", "b", 2, 0⟩, ⟨"add", "B", 0, 2⟩,
       ⟨"delete", "c", 3, 0⟩]) :=
  C5_no_loss _ (by decide)

/-- C9: parsing the empty string yields an empty result and no error, and
an input none of whose lines matches the diff-header pattern also yields
the empty file list without error. -/
theorem C9_empty_and_preamble :
    Parse "" = .ok ⟨[]⟩ ∧
    ∀ input : String, (∀ l ∈ linesOf input, matchDiffHeader l = none) →
      Parse input = .ok ⟨[]⟩ := by
  refine ⟨rfl, fun input hno => ?_⟩
  unfold Parse
  split
  · rfl
  · rw [parseFilesLoop_noHeader _ hno]

/-- Witness for C9 at a stray-preamble input. -/
theorem C9_witness :
    Parse "hello world\n+++ stray\n@@ -1 +1 @@" = .ok ⟨[]⟩ :=
  C9_empty_and_preamble.2 _ (by decide)

/-- C10: the numeric error branch is reachable only through overflow of an
all-digit capture: whenever every matched hunk-header capture of the input
fits the 64-bit Go `int` range, `Parse` succeeds (near-miss header lines
do not match the pattern and are mere unrecognized lines). -/
theorem C10_fits_implies_ok (input : String)
    (hfits : ∀ l ∈ linesOf input,
      Option.all (fun caps => !capsOverflowB caps) (matchHunkHeader l) = true) :
    ∃ r, Parse input = .ok r := by
  cases hp : Parse input with
  | error e =>
    obtain ⟨l, hl, caps, hmh, hov⟩ := Parse_error hp
    have := hfits l hl
    rw [hmh] at this
    simp [Option.all, hov] at this
  | ok r => exact ⟨r, rfl⟩

/-- Witness for C10: an input with a malformed header line (non-numeric
field) and an in-range header parses without error. -/
theorem C10_witness :
    (∀ l ∈ linesOf "diff --git a/x b/x\n@@ -x +1 @@\n@@ -1,2, +3 @@\n@@ -1 +1 @@\n-a",
      Option.all (fun caps => !capsOverflowB caps) (matchHunkHeader l) = true) ∧
    ∃ r, Parse "diff --git a/x b/x\n@@ -x +1 @@\n@@ -1,2, +3 @@\n@@ -1 +1 @@\n-a" = .ok r :=
  ⟨by decide, C10_fits_implies_ok _ (by decide)⟩

theorem atoi_ok_no_over {s : String} {v : Int} (hd : digitsOk s = true)
    (h : atoi s = .ok v) : overBig s = false := by
  unfold digitsOk at hd
  unfold atoi at h
  rw [if_pos hd] at h
  split at h
  · rename_i hle
    simp [overBig]
    omega
  · exact absurd h (by simp)

theorem atoiDefault1_ok_no_over {og : Option String} {v : Int}
    (hd : optDigitsOk og = true) (h : atoiDefault1 og = .ok v) :
    optOverBig og = false := by
  cases og with
  | none => rfl
  | some s => exact atoi_ok_no_over hd h

/-- An overflowing capture makes `parseHunk` fail. -/
theorem parseHunk_error_of_overflow {caps : HunkCaps} (body : List String)
    (hd : capsDigitsB caps = true) (hov : capsOverflowB caps = true) :
    ∃ e, parseHunk caps body = .error e := by
  simp only [capsDigitsB, Bool.and_eq_true] at hd
  obtain ⟨⟨⟨hd1, hd2⟩, hd3⟩, hd4⟩ := hd
  unfold parseHunk
  cases h1 : atoi caps.g1 with
  | error e => exact ⟨_, rfl⟩
  | ok v1 =>
    simp only []
    cases h2 : atoiDefault1 caps.g2 with
    | error e => exact ⟨_, rfl⟩
    | ok v2 =>
      simp only []
      cases h3 : atoi caps.g3 with
      | error e => exact ⟨_, rfl⟩
      | ok v3 =>
        simp only []
        cases h4 : atoiDefault1 caps.g4 with
        | error e => exact ⟨_, rfl⟩
        | ok v4 =>
          exfalso
          have f1 := atoi_ok_no_over hd1 h1
          have f2 := atoiDefault1_ok_no_over hd2 h2
          have f3 := atoi_ok_no_over hd3 h3
          have f4 := atoiDefault1_ok_no_over hd4 h4
          simp [capsOverflowB, f1, f2, f3, f4] at hov

/-- C2: `Parse` returns an error only when a matched hunk header carries a
numeric capture outside the Go `int` range (the only numeric-parse failure
possible for `(\d+)` captures), and conversely an overflowing capture of a
matched header makes `parseHunk` — and with it the whole parse — fail.
The caller receives no partial result in that case: the `Except.error`
branch of `Parse` carries no `DiffResult`. -/
theorem C2_error_iff_numeric_overflow :
    (∀ (input e : String), Parse input = .error e →
      ∃ l ∈ linesOf input, ∃ caps,
        matchHunkHeader l = some caps ∧ capsOverflowB caps = true) ∧
    (∀ (l : String) (caps : HunkCaps) (body : List String),
      matchHunkHeader l = some caps → capsOverflowB caps = true →
      ∃ e, parseHunk caps body = .error e) ∧
    (∀ input : String, (∀ l ∈ linesOf input,
      Option.all (fun caps => !capsOverflowB caps) (matchHunkHeader l) = true) →
      ∃ r, Parse input = .ok r) := by
  refine ⟨fun _ _ h => Parse_error h,
    fun _ caps body hmh hov =>
      parseHunk_error_of_overflow body (matchHunkHeader_digits hmh) hov,
    fun input hfits => ?_⟩
  cases hp : Parse input with
  | error e =>
    obtain ⟨l, hl, caps, hmh, hov⟩ := Parse_error hp
    have hfl := hfits l hl
    rw [hmh] at hfl
    simp [Option.all, hov] at hfl
  | ok r => exact ⟨r, rfl⟩

/-- Witness for C2 at a 20-digit (overflowing) old-start capture. -/
theorem C2_witness :
    (Parse "diff --git a/x b/x\n@@ -99999999999999999999 +1 @@" =
      .error "invalid old start: value out of range") ∧
    (∃ l ∈ linesOf "diff --git a/x b/x\n@@ -99999999999999999999 +1 @@",
      ∃ caps, matchHunkHeader l = some caps ∧ capsOverflowB caps = true) ∧
    (∃ e, parseHunk ⟨"99999999999999999999", none, "1", none, ""⟩ [] = .error e) ∧
    (∃ r, Parse "diff --git a/x b/x\n@@ -1 +1 @@\n-a" = .ok r) :=
  ⟨by decide,
   C2_error_iff_numeric_overflow.1 "diff --git a/x b/x\n@@ -99999999999999999999 +1 @@"
     "invalid old start: value out of range" (by decide),
   C2_error_iff_numeric_overflow.2.1 "@@ -99999999999999999999 +1 @@"
     ⟨"99999999999999999999", none, "1", none, ""⟩ [] (by decide) (by decide),
   C2_error_iff_numeric_overflow.2.2 "diff --git a/x b/x\n@@ -1 +1 @@\n-a" (by decide)⟩

/-- C7: every hunk of a successful parse carries counts that default to 1
exactly when the comma-count was omitted in its matched header line, and a
header string rebuilt from the captures exactly as written, ending in
` @@` plus a space and the whitespace-trimmed trailing context when that
text is nonempty (and nothing after ` @@` when it trims to empty). -/
theorem C7_header_reconstruction {input : String} {r : DiffResult}
    (h : Parse input = .ok r) :
    ∀ f ∈ r.files, ∀ hk ∈ f.hunks, ∃ l ∈ linesOf input, ∃ caps,
      matchHunkHeader l = some caps ∧
      (caps.g2 = none → hk.oldLines = 1) ∧ (caps.g4 = none → hk.newLines = 1) ∧
      hk.header = "@@ -" ++ caps.g1 ++
        (match caps.g2 with | some s => "," ++ s | none => "") ++
        " +" ++ caps.g3 ++
        (match caps.g4 with | some s => "," ++ s | none => "") ++
        " @@" ++
        (if goTrimSpace caps.g5 = "" then "" else " " ++ goTrimSpace caps.g5) := by
  intro f hf hk hhk
  obtain ⟨l, hl, caps, body, rem2, hmh, hpk⟩ := Parse_hunks h f hf hk hhk
  obtain ⟨hh, h2, h4, -⟩ := parseHunk_header hpk
  exact ⟨l, hl, caps, hmh, h2, h4, hh⟩

/-- Witness for C7 at a header with an omitted old count and a trailing
function context that needs trimming. -/
theorem C7_witness :
    Parse "diff --git a/f b/f\n@@ -7 +8,2 @@ func main() \n-a" =
      .ok ⟨[⟨"f", "f", "modified", false,
        [⟨7, 1, 8, 2, "@@ -7 +8,2 @@ func main()",
          [⟨"delete", "a", 7, 0⟩]⟩]⟩]⟩ ∧
    (∀ f ∈ (⟨[⟨"f", "f", "modified", false,
        [⟨7, 1, 8, 2, "@@ -7 +8,2 @@ func main()",
          [⟨"delete", "a", 7, 0⟩]⟩]⟩]⟩ : DiffResult).files,
      ∀ hk ∈ f.hunks,
        ∃ l ∈ linesOf "diff --git a/f b/f\n@@ -7 +8,2 @@ func main() \n-a", ∃ caps,
          matchHunkHeader l = some caps ∧
          (caps.g2 = none → hk.oldLines = 1) ∧ (caps.g4 = none → hk.newLines = 1) ∧
          hk.header = "@@ -" ++ caps.g1 ++
            (match caps.g2 with | some s => "," ++ s | none => "") ++
            " +" ++ caps.g3 ++
            (match caps.g4 with | some s => "," ++ s | none => "") ++
            " @@" ++
            (if goTrimSpace caps.g5 = "" then "" else " " ++ goTrimSpace caps.g5)) :=
  ⟨by decide,
   @C7_header_reconstruction "diff --git a/f b/f\n@@ -7 +8,2 @@ func main() \n-a"
     ⟨[⟨"f", "f", "modified", false,
       [⟨7, 1, 8, 2, "@@ -7 +8,2 @@ func main()",
         [⟨"delete", "a", 7, 0⟩]⟩]⟩]⟩ (by decide)⟩

/-- C1 counterexample: the claim "every `isBinary` FileEntry has empty
hunks; hunk parsing is skipped entirely after a Binary line" is false as
stated.  After the binary branch the Go code breaks into the hunks loop,
so a hunk-header line between the Binary marker and the next diff header
is still parsed and appended to the binary file. -/
theorem C1_counterexample :
    ¬ (∀ (input : String) (r : DiffResult), Parse input = .ok r →
        ∀ f ∈ r.files, f.isBinary = true → f.hunks = []) := by
  intro hclaim
  have hp : Parse "diff --git a/x b/x\nBinary files a/x and b/x differ\n@@ -1 +1 @@\n-a\n+b" =
      .ok ⟨[⟨"x", "x", "modified", true,
        [⟨1, 1, 1, 1, "@@ -1 +1 @@",
          [⟨"delete", "a", 1, 0⟩, ⟨"add", "b", 0, 1⟩]⟩]⟩]⟩ := by decide
  have hemp := hclaim _ _ hp
    ⟨"x", "x", "modified", true,
      [⟨1, 1, 1, 1, "@@ -1 +1 @@",
        [⟨"delete", "a", 1, 0⟩, ⟨"add", "b", 0, 1⟩]⟩]⟩
    (by simp) rfl
  exact absurd hemp (by simp)

/-- C1 amended: the binary branch itself adds no hunks, and when no line
matching the hunk-header pattern occurs among the input lines, every
`isBinary` FileEntry of a successful parse has empty hunks (hunk parsing
is not skipped after the Binary line; it merely finds nothing to parse
when no hunk-header line follows). -/
theorem C1_amended {input : String} {r : DiffResult}
    (hok : Parse input = .ok r)
    (hnoh : ∀ l ∈ linesOf input, matchHunkHeader l = none) :
    ∀ f ∈ r.files, f.isBinary = true → f.hunks = [] := by
  intro f hf hbin
  rw [List.eq_nil_iff_forall_not_mem]
  intro hk hhk
  obtain ⟨l, hl, caps, body, rem2, hmh, -⟩ := Parse_hunks hok f hf hk hhk
  rw [hnoh l hl] at hmh
  exact absurd hmh (by simp)

/-- Witness for the amended C1 at a binary-file input with no hunk lines. -/
theorem C1_witness :
    Parse "diff --git a/img b/img\nBinary files a/img and b/img differ" =
      .ok ⟨[⟨"img", "img", "modified", true, []⟩]⟩ ∧
    (∀ f ∈ (⟨[⟨"img", "img", "modified", true, []⟩]⟩ : DiffResult).files,
      f.isBinary = true → f.hunks = []) :=
  ⟨by decide,
   @C1_amended "diff --git a/img b/img\nBinary files a/img and b/img differ"
     ⟨[⟨"img", "img", "modified", true, []⟩]⟩ (by decide) (by decide)⟩

/-- C6: an empty line mid-hunk terminates the hunk, consuming the empty
line; a line with any other unrecognized first character terminates the
hunk leaving the line in place; in both cases the lines collected so far
are kept and no error arises (the body loop is total), and a later line
matching the hunk-header pattern before the next diff header starts a new
hunk appended to the same file. -/
theorem C6_tolerant_termination :
    (∀ (rest : List String) (o n : Int), parseHunkBody ("" :: rest) o n = ([], rest)) ∧
    (∀ (c : Char) (cs : List Char) (rest : List String) (o n : Int),
      c ≠ ' ' → c ≠ '+' → c ≠ '-' →
      strStarts "@@ " (String.mk (c :: cs)) = false →
      strStarts "diff --git " (String.mk (c :: cs)) = false →
      strStarts "\\ No newline at end of file" (String.mk (c :: cs)) = false →
      parseHunkBody (String.mk (c :: cs) :: rest) o n = ([], String.mk (c :: cs) :: rest)) ∧
    (∀ (file : FileDiff) (l : String) (rest : List String) (caps : HunkCaps)
      (hk : Hunk) (rem : List String),
      strStarts "diff --git " l = false → matchHunkHeader l = some caps →
      parseHunk caps rest = .ok (hk, rem) →
      parseHunksLoop file (l :: rest) =
        parseHunksLoop { file with hunks := file.hunks ++ [hk] } rem) := by
  refine ⟨fun rest o n => rfl, ?_, ?_⟩
  · intro c cs rest o n hsp hpl hmi hAt hDiff hMark
    simp only [parseHunkBody]
    rw [if_neg (by simp [hAt, hDiff]), if_neg (by simp [hMark])]
    rw [if_neg hsp, if_neg hpl, if_neg hmi]
  · intro file l rest caps hk rem hd hmh hpk
    rw [parseHunksLoop_eq]
    simp only [hmh, hpk]
    rw [if_neg (by simp [hd])]

/-- Witness for C6: an empty line, then an `x`-prefixed line, then a new
hunk header in the same file block. -/
theorem C6_witness :
    parseHunkBody ["" , "-kept?"] 5 6 = ([], ["-kept?"]) ∧
    parseHunkBody [String.mk ['x', 'y'], "-z"] 5 6 = ([], [String.mk ['x', 'y'], "-z"]) ∧
    parseHunksLoop ⟨"f", "f", "", false, []⟩ ["@@ -1 +1 @@", "-a"] =
      parseHunksLoop ⟨"f", "f", "", false,
        [⟨1, 1, 1, 1, "@@ -1 +1 @@", [⟨"delete", "a", 1, 0⟩]⟩]⟩ [] :=
  ⟨C6_tolerant_termination.1 ["-kept?"] 5 6,
   C6_tolerant_termination.2.1 'x' ['y'] ["-z"] 5 6 (by decide) (by decide)
     (by decide) (by decide) (by decide) (by decide),
   C6_tolerant_termination.2.2 ⟨"f", "f", "", false, []⟩ "@@ -1 +1 @@" ["-a"]
     ⟨"1", none, "1", none, ""⟩ ⟨1, 1, 1, 1, "@@ -1 +1 @@", [⟨"delete", "a", 1, 0⟩]⟩ []
     (by decide) (by decide) (by decide)⟩

/-- C8: recognizing a `Binary files <old> and <new> differ` line sets
`isBinary`, takes the captured sides with `a/`/`b/` stripped or the
literal `/dev/null` kept as names, and derives the status by the code's
sequential assignment: `deleted` when the new side is `/dev/null` (this
assignment runs last, so it wins when both sides are `/dev/null`), else
`added` when the old side is `/dev/null`, else `renamed` is kept from
earlier rename lines and otherwise the status becomes `modified`. -/
theorem C8_binary_recognition (file : FileDiff) (l : String)
    (rest : List String) (o n : String)
    (hm : matchBinary l = some (o, n))
    (hst : file.status = "" ∨ file.status = "renamed") :
    parseExtHeaders file (l :: rest) =
      ({ file with
          isBinary := true,
          oldName := if o = "/dev/null" then "/dev/null" else trimLead "a/" o,
          newName := if n = "/dev/null" then "/dev/null" else trimLead "b/" n,
          status := if n = "/dev/null" then "deleted"
                    else if o = "/dev/null" then "added"
                    else if file.status = "renamed" then "renamed"
                    else "modified" }, rest) := by
  obtain ⟨hdiff, hrf, hrt⟩ := matchBinary_excl hm
  simp only [parseExtHeaders, hrf, hrt, hm]
  rw [if_neg (by simp [hdiff])]
  by_cases ho : o = "/dev/null" <;> by_cases hn : n = "/dev/null" <;>
    rcases hst with hst | hst <;>
      simp [ho, hn, hst]

/-- Witness for C8 on a fresh file state and a binary modification line. -/
theorem C8_witness :
    parseExtHeaders ⟨"img.png", "img.png", "", false, []⟩
      ["Binary files a/img.png and b/img.png differ", "tail"] =
      (⟨"img.png", "img.png", "modified", true, []⟩, ["tail"]) := by
  have h := C8_binary_recognition ⟨"img.png", "img.png", "", false, []⟩
    "Binary files a/img.png and b/img.png differ" ["tail"]
    "a/img.png" "b/img.png" (by decide) (Or.inl rfl)
  rw [h]
  decide

end Ghdiff
